import Mathlib

/-!
Verification of the request-local typed cache fragment
(src/core/lib/src/request/mod.rs): the `local_cache!` and
`local_cache_once!` macros and the typed cache store / shared stack they
drive. The macros are embedded from the source; the backing primitives
(`Request::local_cache`, `SharedStack`, the sealed `Shareable` trait) live
outside the given sources and are modelled from the specification, as
marked on each definition.
-/

namespace Leukailu

/-- Type-identity keys of the request-local typed cache. `bare ty` is the
identity of a plain payload type passed directly to the cache; `proxyOnce
site` is the identity of the anonymous `struct Local<T>(T)` generated by one
textual `local_cache_once!` call site; `proxyStack site` is the identity of
the anonymous `struct Local<T>(SharedStack<T>)` generated by one textual
`local_cache!` call site. Distinct call sites generate distinct types, hence
distinct keys. -/
inductive Key where
  | bare (ty : Nat)
  | proxyOnce (site : Nat)
  | proxyStack (site : Nat)
deriving DecidableEq

/-- A type-erased cache entry: either one cached value (the plain
`local_cache` / `local_cache_once!` shape) or the `SharedStack` a
`local_cache!` site stores its pushed elements in. -/
inductive Entry (α : Type) where
  | single (v : α)
  | stack (xs : List α)
deriving DecidableEq

/-- Modelled from the spec: the Typed Cache Store owned by one request
(the state container backing `Request::local_cache`, not under src/): a
mapping from type identity to at most one stored entry, here an association
list. -/
abbrev Cache (α : Type) : Type := List (Key × Entry α)

/-- The cache a request starts with: empty. -/
def emptyCache (α : Type) : Cache α := []

/-- Look up the entry stored under a type-identity key. -/
def lookupKey {α : Type} : Cache α → Key → Option (Entry α)
  | [], _ => none
  | (k, e) :: rest, q => if k = q then some e else lookupKey rest q

/-- Replace the entry stored under a key that is already present (models an
in-place mutation of a cached value through a shared reference). Keys that
are absent are left absent. -/
def setKey {α : Type} : Cache α → Key → Entry α → Cache α
  | [], _, _ => []
  | (k, e) :: rest, q, v => if k = q then (q, v) :: rest else (k, e) :: setKey rest q v

/-- Modelled from the spec: `get_or_init` of the Typed Cache Store
(`Request::local_cache`, not under src/). If an entry for the key exists it
is returned and the factory is not invoked; otherwise the factory runs once
and its result is inserted under the key. The returned Bool records whether
the factory ran on this call. -/
def getOrInit {α : Type} (c : Cache α) (k : Key) (f : Unit → Entry α) :
    Entry α × Cache α × Bool :=
  match lookupKey c k with
  | some e => (e, c, false)
  | none => (f (), (k, f ()) :: c, true)

/-- Modelled from the spec: `get_or_init` when the caller-supplied factory
may abort (returns `none`). A failed factory commits nothing: the cache is
returned unchanged and no entry is recorded. -/
def getOrInitF {α : Type} (c : Cache α) (k : Key) (f : Unit → Option (Entry α)) :
    Option (Entry α) × Cache α × Bool :=
  match lookupKey c k with
  | some e => (some e, c, false)
  | none =>
    match f () with
    | some e => (some e, (k, e) :: c, true)
    | none => (none, c, true)

/-- A reference handed back to a caller: the slot's type-identity key plus
an index into that slot (0 for a single cached value, the element position
for a `SharedStack` element). -/
structure Ref where
  key : Key
  idx : Nat
deriving DecidableEq

/-- Positional lookup in a list, used to read a stack element. -/
def listGet {α : Type} : List α → Nat → Option α
  | [], _ => none
  | x :: _, 0 => some x
  | _ :: xs, Nat.succ n => listGet xs n

/-- The value a reference observes in a given cache state. -/
def readRef {α : Type} (c : Cache α) (r : Ref) : Option α :=
  match lookupKey c r.key with
  | some (Entry.single v) => if r.idx = 0 then some v else none
  | some (Entry.stack xs) => listGet xs r.idx
  | none => none

/-- Modelled from the spec: `SharedStack::push_owned`
(`crate::form::SharedStack`, not under src/): appends the owned value at the
end and returns the index of the new element; earlier elements are never
moved, removed or mutated. -/
def pushOwned {α : Type} (xs : List α) (v : α) : Nat × List α :=
  (xs.length, xs ++ [v])

/-- One runtime invocation of a caching entry point.
`once site v` is one invocation of the `local_cache_once!` call site `site`
(the value expression `v` is moved into the factory closure, so it is a
thunk evaluated only if the factory runs). `stackPush site v` is one
invocation of the `local_cache!` call site `site` (the value is an argument
of `push_owned`, evaluated on every invocation). `rawInit ty f` is a direct
`request.local_cache(f)` call for the bare payload type `ty`. -/
inductive Op (α : Type) where
  | once (site : Nat) (v : Unit → α)
  | stackPush (site : Nat) (v : α)
  | rawInit (ty : Nat) (f : Unit → α)

/-- The type-identity key an operation reads and writes. -/
def opKey {α : Type} : Op α → Key
  | Op.once site _ => Key.proxyOnce site
  | Op.stackPush site _ => Key.proxyStack site
  | Op.rawInit ty _ => Key.bare ty

/-- Execute one invocation, embedded from the macro expansions in the
source. `once`: `struct Local<T>(T); &request.local_cache(move || Local(v)).0`.
`stackPush`: `struct Local<T>(SharedStack<T>);
let stack = request.local_cache(|| Local(SharedStack::new()));
stack.0.push_owned(v)`. `rawInit`: `request.local_cache(f)`.
Returns the reference handed back, the new cache, and whether the factory
(and hence, for `once`, the captured value expression) was evaluated. -/
def applyOp {α : Type} (c : Cache α) : Op α → Ref × Cache α × Bool
  | Op.once site v =>
    let r := getOrInit c (Key.proxyOnce site) (fun _ => Entry.single (v ()))
    (⟨Key.proxyOnce site, 0⟩, r.2.1, r.2.2)
  | Op.stackPush site v =>
    let r := getOrInit c (Key.proxyStack site) (fun _ => Entry.stack [])
    match r.1 with
    | Entry.stack xs =>
      let p := pushOwned xs v
      (⟨Key.proxyStack site, p.1⟩, setKey r.2.1 (Key.proxyStack site) (Entry.stack p.2), r.2.2)
    | Entry.single _ => (⟨Key.proxyStack site, 0⟩, r.2.1, r.2.2)
  | Op.rawInit ty f =>
    let r := getOrInit c (Key.bare ty) (fun _ => Entry.single (f ()))
    (⟨Key.bare ty, 0⟩, r.2.1, r.2.2)

/-- Run a sequence of invocations, returning the final cache. -/
def runOps {α : Type} (c : Cache α) : List (Op α) → Cache α
  | [] => c
  | op :: rest => runOps (applyOp c op).2.1 rest

/-- Run a sequence of invocations, returning for each one the reference it
handed back and whether its factory ran, together with the final cache. -/
def traceOps {α : Type} (c : Cache α) : List (Op α) → List (Ref × Bool) × Cache α
  | [] => ([], c)
  | op :: rest =>
    let r := applyOp c op
    let t := traceOps r.2.1 rest
    ((r.1, r.2.2) :: t.1, t.2)

/-- Run a sequence of `get_or_init` calls for one key with the given
factories, returning for each call the entry it returned and whether its
factory ran, together with the final cache. -/
def getOrInitSeq {α : Type} (c : Cache α) (k : Key) :
    List (Unit → Entry α) → List (Ref × Entry α × Bool) × Cache α
  | [] => ([], c)
  | f :: fs =>
    let r := getOrInit c k f
    let t := getOrInitSeq r.2.1 k fs
    ((⟨k, 0⟩, r.1, r.2.2) :: t.1, t.2)

/-- The references a run of `local_cache!` invocations at one call site
hands back once its stack exists: element `i` is the reference to slot
`start + i`, with the factory not running. -/
def stackRefs (site : Nat) : Nat → Nat → List (Ref × Bool)
  | _, 0 => []
  | start, Nat.succ n => (⟨Key.proxyStack site, start⟩, false) :: stackRefs site (start + 1) n

/-- A world of concurrent requests: each request identifier owns its own
independent cache, modelled from the spec (each request owns an independent
instance; caches are never shared across requests). -/
def runWorld {α : Type} (w : Nat → Cache α) : List (Nat × Op α) → Nat → Cache α
  | [], r => w r
  | p :: rest, r =>
    runWorld (fun j => if j = p.1 then (applyOp (w j) p.2).2.1 else w j) rest r

/-- Modelled from the spec: the closed universe of payload types, of which
the sealed trait `crate::form::Shareable` (not under src/) admits exactly
the string-like type and vector-like containers of any element type. -/
inductive PayloadTy where
  | str
  | vec (elem : PayloadTy)
  | other (id : Nat)
deriving DecidableEq

/-- Modelled from the spec: membership in the sealed `Shareable` set —
string-like values and list/vector-like containers of any element type;
everything else is outside the set. -/
def shareable : PayloadTy → Bool
  | PayloadTy.str => true
  | PayloadTy.vec _ => true
  | PayloadTy.other _ => false

/-- Modelled from the spec: the compile-time admission of a `local_cache!`
call for a payload of type `t`: the call site compiles (and then runs the
stack push, which always succeeds) exactly when `t` is in the sealed
`Shareable` set; rejection depends only on the type, never on the runtime
value or cache state. -/
def localCacheTyped {α : Type} (t : PayloadTy) (c : Cache α) (site : Nat) (v : α) :
    Option (Ref × Cache α) :=
  if shareable t then
    some ((applyOp c (Op.stackPush site v)).1, (applyOp c (Op.stackPush site v)).2.1)
  else none

/-- Looking a key up right after it was stored at the head finds it. -/
theorem lookupKey_cons_self {α : Type} (k : Key) (e : Entry α) (c : Cache α) :
    lookupKey ((k, e) :: c) k = some e := by
  simp [lookupKey]

/-- A head entry under a different key is transparent to lookup. -/
theorem lookupKey_cons_ne {α : Type} {k q : Key} (h : k ≠ q) (e : Entry α) (c : Cache α) :
    lookupKey ((k, e) :: c) q = lookupKey c q := by
  simp [lookupKey, h]

/-- Overwriting the head entry replaces it in place. -/
theorem setKey_cons_self {α : Type} (k : Key) (e v : Entry α) (c : Cache α) :
    setKey ((k, e) :: c) k v = (k, v) :: c := by
  simp [setKey]

/-- After overwriting a present key, lookup sees the new entry. -/
theorem lookupKey_setKey_self {α : Type} {c : Cache α} {k : Key} {e : Entry α}
    (h : lookupKey c k = some e) (w : Entry α) :
    lookupKey (setKey c k w) k = some w := by
  induction c with
  | nil => simp [lookupKey] at h
  | cons p rest ih =>
    obtain ⟨k1, e1⟩ := p
    by_cases hk : k1 = k
    · subst hk
      simp [setKey, lookupKey]
    · simp only [lookupKey, if_neg hk] at h
      simp only [setKey, if_neg hk, lookupKey, if_neg hk]
      exact ih h

/-- Overwriting one key leaves every other key's entry unchanged. -/
theorem lookupKey_setKey_ne {α : Type} (c : Cache α) {k q : Key} (h : q ≠ k)
    (w : Entry α) : lookupKey (setKey c k w) q = lookupKey c q := by
  induction c with
  | nil => simp [setKey]
  | cons p rest ih =>
    obtain ⟨k1, e1⟩ := p
    by_cases hk : k1 = k
    · subst hk
      have hne : k1 ≠ q := fun hq => h hq.symm
      simp [setKey, lookupKey, hne]
    · by_cases hq : k1 = q
      · subst hq
        simp [setKey, if_neg hk, lookupKey]
      · simp only [setKey, if_neg hk, lookupKey, if_neg hq]
        exact ih

/-- Two successive overwrites of one key collapse to the last one. -/
theorem setKey_setKey {α : Type} (c : Cache α) (k : Key) (v w : Entry α) :
    setKey (setKey c k v) k w = setKey c k w := by
  induction c with
  | nil => simp [setKey]
  | cons p rest ih =>
    obtain ⟨k1, e1⟩ := p
    by_cases hk : k1 = k
    · subst hk
      simp [setKey]
    · simp only [setKey, if_neg hk]
      rw [ih]

/-- Overwriting a present key with the entry it already holds is a no-op. -/
theorem setKey_self_eq {α : Type} {c : Cache α} {k : Key} {e : Entry α}
    (h : lookupKey c k = some e) : setKey c k e = c := by
  induction c with
  | nil => simp [lookupKey] at h
  | cons p rest ih =>
    obtain ⟨k1, e1⟩ := p
    by_cases hk : k1 = k
    · subst hk
      have he : e1 = e := by
        simpa [lookupKey] using h
      simp [setKey, he]
    · simp only [lookupKey, if_neg hk] at h
      simp only [setKey, if_neg hk]
      rw [ih h]

/-- A get-or-init call on a populated key returns the stored entry, leaves
the cache unchanged, and does not invoke the factory. -/
theorem getOrInit_hit {α : Type} {c : Cache α} {k : Key} {e : Entry α}
    (h : lookupKey c k = some e) (f : Unit → Entry α) :
    getOrInit c k f = (e, c, false) := by
  simp [getOrInit, h]

/-- A get-or-init call on an absent key runs the factory once and inserts
its result. -/
theorem getOrInit_miss {α : Type} {c : Cache α} {k : Key}
    (h : lookupKey c k = none) (f : Unit → Entry α) :
    getOrInit c k f = (f (), (k, f ()) :: c, true) := by
  simp [getOrInit, h]

/-- A once-site invocation on a populated slot returns the slot's reference
without running the factory or touching the cache. -/
theorem applyOp_once_hit {α : Type} {c : Cache α} {s : Nat} {e : Entry α}
    (h : lookupKey c (Key.proxyOnce s) = some e) (v : Unit → α) :
    applyOp c (Op.once s v) = (⟨Key.proxyOnce s, 0⟩, c, false) := by
  simp [applyOp, getOrInit_hit h]

/-- The first once-site invocation stores the value expression's result. -/
theorem applyOp_once_miss {α : Type} {c : Cache α} {s : Nat}
    (h : lookupKey c (Key.proxyOnce s) = none) (v : Unit → α) :
    applyOp c (Op.once s v) =
      (⟨Key.proxyOnce s, 0⟩, (Key.proxyOnce s, Entry.single (v ())) :: c, true) := by
  simp [applyOp, getOrInit_miss h]

/-- A stack-site invocation on an existing stack appends the value at the
end and returns a reference to the new element. -/
theorem applyOp_push_hit {α : Type} {c : Cache α} {s : Nat} {xs : List α}
    (h : lookupKey c (Key.proxyStack s) = some (Entry.stack xs)) (v : α) :
    applyOp c (Op.stackPush s v) =
      (⟨Key.proxyStack s, xs.length⟩,
       setKey c (Key.proxyStack s) (Entry.stack (xs ++ [v])), false) := by
  simp [applyOp, getOrInit_hit h, pushOwned]

/-- The degenerate case of a non-stack entry under a stack-site key (never
reachable from an empty cache) leaves the cache unchanged. -/
theorem applyOp_push_single {α : Type} {c : Cache α} {s : Nat} {w : α}
    (h : lookupKey c (Key.proxyStack s) = some (Entry.single w)) (v : α) :
    applyOp c (Op.stackPush s v) = (⟨Key.proxyStack s, 0⟩, c, false) := by
  simp [applyOp, getOrInit_hit h]

/-- The first stack-site invocation creates the backing stack and pushes
the first value into slot 0. -/
theorem applyOp_push_miss {α : Type} {c : Cache α} {s : Nat}
    (h : lookupKey c (Key.proxyStack s) = none) (v : α) :
    applyOp c (Op.stackPush s v) =
      (⟨Key.proxyStack s, 0⟩, (Key.proxyStack s, Entry.stack [v]) :: c, true) := by
  simp [applyOp, getOrInit_miss h, pushOwned, setKey_cons_self]

/-- A direct bare-type call on a populated slot returns it unchanged. -/
theorem applyOp_raw_hit {α : Type} {c : Cache α} {ty : Nat} {e : Entry α}
    (h : lookupKey c (Key.bare ty) = some e) (f : Unit → α) :
    applyOp c (Op.rawInit ty f) = (⟨Key.bare ty, 0⟩, c, false) := by
  simp [applyOp, getOrInit_hit h]

/-- The first direct bare-type call runs its factory and stores the result. -/
theorem applyOp_raw_miss {α : Type} {c : Cache α} {ty : Nat}
    (h : lookupKey c (Key.bare ty) = none) (f : Unit → α) :
    applyOp c (Op.rawInit ty f) =
      (⟨Key.bare ty, 0⟩, (Key.bare ty, Entry.single (f ())) :: c, true) := by
  simp [applyOp, getOrInit_miss h]

/-- Frame property of one invocation: it reads and writes only its own key;
the entry under every other key is untouched. -/
theorem lookupKey_applyOp_frame {α : Type} (c : Cache α) (op : Op α) {q : Key}
    (h : q ≠ opKey op) : lookupKey (applyOp c op).2.1 q = lookupKey c q := by
  cases op with
  | once s v =>
    simp only [opKey] at h
    rcases hl : lookupKey c (Key.proxyOnce s) with _ | e
    · rw [applyOp_once_miss hl]
      exact lookupKey_cons_ne (Ne.symm h) _ _
    · rw [applyOp_once_hit hl]
  | stackPush s v =>
    simp only [opKey] at h
    rcases hl : lookupKey c (Key.proxyStack s) with _ | e
    · rw [applyOp_push_miss hl]
      exact lookupKey_cons_ne (Ne.symm h) _ _
    · cases e with
      | single w => rw [applyOp_push_single hl]
      | stack xs =>
        rw [applyOp_push_hit hl]
        exact lookupKey_setKey_ne _ h _
  | rawInit ty f =>
    simp only [opKey] at h
    rcases hl : lookupKey c (Key.bare ty) with _ | e
    · rw [applyOp_raw_miss hl]
      exact lookupKey_cons_ne (Ne.symm h) _ _
    · rw [applyOp_raw_hit hl]

/-- Frame property of a whole run: invocations whose keys all differ from
`q` leave the entry under `q` unchanged. -/
theorem lookupKey_runOps_frame {α : Type} {q : Key} :
    ∀ (ops : List (Op α)) (c : Cache α), (∀ op ∈ ops, q ≠ opKey op) →
      lookupKey (runOps c ops) q = lookupKey c q
  | [], _, _ => rfl
  | op :: rest, c, h => by
    have h1 := h op (List.mem_cons_self op rest)
    have h2 : ∀ o ∈ rest, q ≠ opKey o := fun o ho => h o (List.mem_cons_of_mem _ ho)
    calc lookupKey (runOps (applyOp c op).2.1 rest) q
        = lookupKey (applyOp c op).2.1 q := lookupKey_runOps_frame rest _ h2
      _ = lookupKey c q := lookupKey_applyOp_frame c op h1

/-- What a reference observes depends only on the entry under its key. -/
theorem readRef_congr {α : Type} {c1 c2 : Cache α} (r : Ref)
    (h : lookupKey c1 r.key = lookupKey c2 r.key) : readRef c1 r = readRef c2 r := by
  unfold readRef
  rw [h]

/-- Appending on the right never disturbs a successful positional lookup. -/
theorem listGet_append_left {α : Type} {xs : List α} {i : Nat} {x : α}
    (h : listGet xs i = some x) (ys : List α) : listGet (xs ++ ys) i = some x := by
  induction xs generalizing i with
  | nil => simp [listGet] at h
  | cons a as ih =>
    cases i with
    | zero => simpa [listGet] using h
    | succ n =>
      simp only [listGet] at h
      simpa only [List.cons_append, listGet] using ih h

/-- The element just appended sits at the old length's index. -/
theorem listGet_snoc_length {α : Type} (xs : List α) (v : α) :
    listGet (xs ++ [v]) xs.length = some v := by
  induction xs with
  | nil => rfl
  | cons a as ih => exact ih

/-- Positions below the length hold some element. -/
theorem listGet_lt_isSome {α : Type} {xs : List α} {i : Nat} (h : i < xs.length) :
    ∃ x, listGet xs i = some x := by
  induction xs generalizing i with
  | nil => exact absurd h (Nat.not_lt_zero i)
  | cons a as ih =>
    cases i with
    | zero => exact ⟨a, rfl⟩
    | succ n => exact ih (Nat.lt_of_succ_lt_succ h)

/-- Stability of observations: once a reference observes a value, no later
invocation of any entry point in the same request changes what it observes. -/
theorem readRef_applyOp_preserved {α : Type} {c : Cache α} {r : Ref} {x : α}
    (h : readRef c r = some x) (op : Op α) :
    readRef (applyOp c op).2.1 r = some x := by
  by_cases hq : r.key = opKey op
  · cases op with
    | once s v =>
      simp only [opKey] at hq
      rcases hl : lookupKey c (Key.proxyOnce s) with _ | e
      · have : readRef c r = none := by
          unfold readRef
          rw [hq, hl]
        rw [this] at h
        exact absurd h (by simp)
      · rw [applyOp_once_hit hl]
        exact h
    | stackPush s v =>
      simp only [opKey] at hq
      rcases hl : lookupKey c (Key.proxyStack s) with _ | e
      · have : readRef c r = none := by
          unfold readRef
          rw [hq, hl]
        rw [this] at h
        exact absurd h (by simp)
      · cases e with
        | single w =>
          rw [applyOp_push_single hl]
          exact h
        | stack xs =>
          have h2 : listGet xs r.idx = some x := by
            unfold readRef at h
            rw [hq, hl] at h
            exact h
          rw [applyOp_push_hit hl]
          show readRef (setKey c (Key.proxyStack s) (Entry.stack (xs ++ [v]))) r = some x
          unfold readRef
          rw [hq, lookupKey_setKey_self hl (Entry.stack (xs ++ [v]))]
          exact listGet_append_left h2 [v]
    | rawInit ty f =>
      simp only [opKey] at hq
      rcases hl : lookupKey c (Key.bare ty) with _ | e
      · have : readRef c r = none := by
          unfold readRef
          rw [hq, hl]
        rw [this] at h
        exact absurd h (by simp)
      · rw [applyOp_raw_hit hl]
        exact h
  · rw [readRef_congr r (lookupKey_applyOp_frame c op hq)]
    exact h

/-- Stability of observations over a whole run of later invocations. -/
theorem readRef_runOps_preserved {α : Type} {r : Ref} {x : α} :
    ∀ (ops : List (Op α)) (c : Cache α), readRef c r = some x →
      readRef (runOps c ops) r = some x
  | [], _, h => h
  | op :: rest, c, h =>
    readRef_runOps_preserved rest (applyOp c op).2.1 (readRef_applyOp_preserved h op)

/-- Once a key is populated, every further get-or-init call for it returns
the stored entry, runs no factory, and leaves the cache unchanged. -/
theorem getOrInitSeq_stable {α : Type} {k : Key} {e : Entry α} :
    ∀ (fs : List (Unit → Entry α)) (c : Cache α), lookupKey c k = some e →
      getOrInitSeq c k fs = (fs.map (fun _ => (⟨k, 0⟩, e, false)), c)
  | [], _, _ => rfl
  | f :: fs, c, h => by
    simp only [List.map_cons, getOrInitSeq, getOrInit_hit h f]
    rw [getOrInitSeq_stable fs c h]

/-- Once a once-site's slot is populated, every further invocation of that
call site returns the same reference, runs nothing, and changes nothing. -/
theorem traceOps_once_stable {α : Type} {s : Nat} {e : Entry α} :
    ∀ (vs : List (Unit → α)) (c : Cache α),
      lookupKey c (Key.proxyOnce s) = some e →
      traceOps c (vs.map (Op.once s)) =
        (vs.map (fun _ => (⟨Key.proxyOnce s, 0⟩, false)), c)
  | [], _, _ => rfl
  | v :: vs, c, h => by
    simp only [List.map_cons, traceOps, applyOp_once_hit h v]
    rw [traceOps_once_stable vs c h]

/-- Closed form of a once-site run from an unpopulated slot: the first
invocation evaluates its value expression and stores the result; all later
invocations return the same reference without evaluating anything. -/
theorem traceOps_once_run {α : Type} {s : Nat} {c : Cache α}
    (h : lookupKey c (Key.proxyOnce s) = none) (v1 : Unit → α) (vs : List (Unit → α)) :
    traceOps c ((v1 :: vs).map (Op.once s)) =
      ((⟨Key.proxyOnce s, 0⟩, true) :: vs.map (fun _ => (⟨Key.proxyOnce s, 0⟩, false)),
       (Key.proxyOnce s, Entry.single (v1 ())) :: c) := by
  simp only [List.map_cons, traceOps, applyOp_once_miss h v1]
  rw [traceOps_once_stable vs _ (lookupKey_cons_self _ _ _)]

/-- Closed form of a stack-site run over an existing backing stack: the
i-th invocation pushes into slot `xs.length + i` without running the
factory, and the net cache change is the stack growing at the end. -/
theorem traceOps_push_run {α : Type} {s : Nat} :
    ∀ (vs : List α) (c : Cache α) (xs : List α),
      lookupKey c (Key.proxyStack s) = some (Entry.stack xs) →
      traceOps c (vs.map (Op.stackPush s)) =
        (stackRefs s xs.length vs.length,
         setKey c (Key.proxyStack s) (Entry.stack (xs ++ vs)))
  | [], c, xs, h => by
    simp [traceOps, stackRefs, setKey_self_eq h]
  | v :: vs, c, xs, h => by
    have hset : lookupKey (setKey c (Key.proxyStack s) (Entry.stack (xs ++ [v])))
        (Key.proxyStack s) = some (Entry.stack (xs ++ [v])) :=
      lookupKey_setKey_self h _
    simp only [List.map_cons, traceOps, applyOp_push_hit h v]
    rw [traceOps_push_run vs _ (xs ++ [v]) hset]
    simp [stackRefs, setKey_setKey, List.append_assoc]

/-- Closed form of a stack-site run from an unpopulated slot: the first
invocation creates the stack and fills slot 0; invocation `i` fills slot
`i`; the run adds exactly one cache entry, holding all pushed values. -/
theorem traceOps_stack_run {α : Type} {s : Nat} {c : Cache α}
    (h : lookupKey c (Key.proxyStack s) = none) (v1 : α) (rest : List α) :
    traceOps c ((v1 :: rest).map (Op.stackPush s)) =
      ((⟨Key.proxyStack s, 0⟩, true) :: stackRefs s 1 rest.length,
       (Key.proxyStack s, Entry.stack (v1 :: rest)) :: c) := by
  simp only [List.map_cons, traceOps, applyOp_push_miss h v1]
  rw [traceOps_push_run rest _ [v1] (lookupKey_cons_self _ _ _)]
  simp [setKey_cons_self]

/-- Every reference in a stack-site run's tail targets the site's key, sits
at slot `start` or later, and ran no factory. -/
theorem stackRefs_mem {s : Nat} :
    ∀ {n start : Nat} {p : Ref × Bool}, p ∈ stackRefs s start n →
      p.1.key = Key.proxyStack s ∧ start ≤ p.1.idx ∧ p.2 = false
  | 0, _, _, hp => absurd hp (List.not_mem_nil _)
  | Nat.succ n, start, p, hp => by
    rcases List.mem_cons.mp hp with h1 | h1
    · subst h1
      exact ⟨rfl, Nat.le_refl start, rfl⟩
    · obtain ⟨hk, hs, hb⟩ := stackRefs_mem h1
      exact ⟨hk, Nat.le_of_succ_le hs, hb⟩

/-- The references of a stack-site run are pairwise distinct. -/
theorem stackRefs_pairwise (s : Nat) :
    ∀ (n start : Nat), List.Pairwise (fun a b : Ref × Bool => a.1 ≠ b.1) (stackRefs s start n)
  | 0, _ => List.Pairwise.nil
  | Nat.succ n, start => by
    refine List.Pairwise.cons ?_ (stackRefs_pairwise s n (start + 1))
    intro p hp heq
    have hs := (stackRefs_mem hp).2.1
    rw [← heq] at hs
    exact Nat.not_succ_le_self start hs

/-- The i-th reference of a stack-site run targets slot `start + i`. -/
theorem listGet_stackRefs (s : Nat) :
    ∀ (n start i : Nat), i < n →
      listGet ((stackRefs s start n).map Prod.fst) i =
        some ⟨Key.proxyStack s, start + i⟩
  | 0, _, i, hi => absurd hi (Nat.not_lt_zero i)
  | Nat.succ n, start, 0, _ => by simp [stackRefs, listGet]
  | Nat.succ n, start, Nat.succ i, hi => by
    have := listGet_stackRefs s n (start + 1) i (Nat.lt_of_succ_lt_succ hi)
    simp only [stackRefs, List.map_cons, listGet]
    rw [this]
    have harith : start + 1 + i = start + (i + 1) := by omega
    rw [harith]

/-- Mapping a constant over a list only records the list's length. -/
theorem map_const_replicate {β γ : Type} (x : γ) :
    ∀ (l : List β), l.map (fun _ => x) = List.replicate l.length x
  | [] => rfl
  | b :: l => by simp [List.replicate, map_const_replicate x l]

/-- A world run restricted to one request equals that request's own
operations run in isolation on its own cache: caches are never shared. -/
theorem runWorld_proj {α : Type} :
    ∀ (ops : List (Nat × Op α)) (w : Nat → Cache α) (r : Nat),
      runWorld w ops r = runOps (w r) ((ops.filter (fun p => p.1 == r)).map Prod.snd)
  | [], _, _ => rfl
  | p :: rest, w, r => by
    obtain ⟨i, op⟩ := p
    by_cases h : i = r
    · subst h
      have hrec := runWorld_proj rest (fun j => if j = i then (applyOp (w j) op).2.1 else w j) i
      simp only [runWorld]
      rw [hrec]
      simp [runOps, List.filter_cons]
    · have hne : r ≠ i := fun hr => h hr.symm
      have hrec := runWorld_proj rest (fun j => if j = i then (applyOp (w j) op).2.1 else w j) r
      simp only [runWorld]
      rw [hrec]
      simp [List.filter_cons, h, hne]

/-- The references returned across a stack-site run from an unpopulated
slot are pairwise distinct. -/
theorem stack_run_refs_pairwise {α : Type} {s : Nat} {c : Cache α}
    (h : lookupKey c (Key.proxyStack s) = none) (v1 : α) (rest : List α) :
    List.Pairwise (fun a b : Ref × Bool => a.1 ≠ b.1)
      (traceOps c ((v1 :: rest).map (Op.stackPush s))).1 := by
  rw [traceOps_stack_run h v1 rest]
  show List.Pairwise (fun a b : Ref × Bool => a.1 ≠ b.1)
    ((⟨Key.proxyStack s, 0⟩, true) :: stackRefs s 1 rest.length)
  refine List.Pairwise.cons ?_ (stackRefs_pairwise s rest.length 1)
  intro p hp heq
  have hs := (stackRefs_mem hp).2.1
  rw [← heq] at hs
  simp at hs

/-- The direct bare-type call's behaviour is a function of the bare slot
alone: equal bare entries give equal factory-run flags and observations. -/
theorem rawInit_depends_only_on_bare {α : Type} {c1 c2 : Cache α} (ty : Nat)
    (f : Unit → α)
    (h : lookupKey c1 (Key.bare ty) = lookupKey c2 (Key.bare ty)) :
    (applyOp c1 (Op.rawInit ty f)).2.2 = (applyOp c2 (Op.rawInit ty f)).2.2 ∧
    readRef (applyOp c1 (Op.rawInit ty f)).2.1 ⟨Key.bare ty, 0⟩ =
      readRef (applyOp c2 (Op.rawInit ty f)).2.1 ⟨Key.bare ty, 0⟩ := by
  rcases hl : lookupKey c2 (Key.bare ty) with _ | e
  · rw [hl] at h
    rw [applyOp_raw_miss h f, applyOp_raw_miss hl f]
    constructor
    · rfl
    · refine readRef_congr _ ?_
      show lookupKey ((Key.bare ty, Entry.single (f ())) :: c1) (Key.bare ty)
          = lookupKey ((Key.bare ty, Entry.single (f ())) :: c2) (Key.bare ty)
      rw [lookupKey_cons_self, lookupKey_cons_self]
  · rw [hl] at h
    rw [applyOp_raw_hit h f, applyOp_raw_hit hl f]
    constructor
    · rfl
    · refine readRef_congr _ ?_
      show lookupKey c1 (Key.bare ty) = lookupKey c2 (Key.bare ty)
      rw [h, hl]

/-- C1: for every request and type T, a sequence of get-or-init calls for T
with factories f1, f2, ..., fn all return references to the same value —
the one produced by f1 — only f1 is ever invoked (the run flag is true
exactly on the first call), and no later call replaces the stored value. -/
theorem getOrInit_idempotent_singleton {α : Type} (c : Cache α) (k : Key)
    (f1 : Unit → Entry α) (fs : List (Unit → Entry α))
    (h : lookupKey c k = none) :
    (getOrInitSeq c k (f1 :: fs)).1 =
      (⟨k, 0⟩, f1 (), true) :: fs.map (fun _ => (⟨k, 0⟩, f1 (), false)) ∧
    lookupKey (getOrInitSeq c k (f1 :: fs)).2 k = some (f1 ()) := by
  have hcons : lookupKey ((k, f1 ()) :: c) k = some (f1 ()) :=
    lookupKey_cons_self _ _ _
  have hrun : getOrInitSeq c k (f1 :: fs) =
      ((⟨k, 0⟩, f1 (), true) :: fs.map (fun _ => (⟨k, 0⟩, f1 (), false)),
       (k, f1 ()) :: c) := by
    simp only [getOrInitSeq, getOrInit_miss h f1]
    rw [getOrInitSeq_stable fs _ hcons]
  rw [hrun]
  exact ⟨rfl, hcons⟩

/-- Witness for C1 at a concrete input: two factories for one type; both
calls return the first factory's value and only the first factory ran. -/
theorem getOrInit_idempotent_singleton_witness :
    (getOrInitSeq (emptyCache Nat) (Key.bare 0)
        [fun _ => Entry.single 7, fun _ => Entry.single 8]).1 =
      [(⟨Key.bare 0, 0⟩, Entry.single 7, true),
       (⟨Key.bare 0, 0⟩, Entry.single 7, false)] ∧
    lookupKey (getOrInitSeq (emptyCache Nat) (Key.bare 0)
        [fun _ => Entry.single 7, fun _ => Entry.single 8]).2 (Key.bare 0) =
      some (Entry.single 7) :=
  getOrInit_idempotent_singleton (emptyCache Nat) (Key.bare 0)
    (fun _ => Entry.single 7) [fun _ => Entry.single 8] rfl

/-- C2: repeated runtime invocations of one local_cache_once! call site
within a request all return the same reference to the same slot; the value
stored by the first invocation wins and later invocations return it
unchanged, adding nothing to the cache. -/
theorem localCacheOnce_first_invocation_wins {α : Type} (c : Cache α) (s : Nat)
    (v1 : Unit → α) (vs : List (Unit → α))
    (h : lookupKey c (Key.proxyOnce s) = none) :
    traceOps c ((v1 :: vs).map (Op.once s)) =
      ((⟨Key.proxyOnce s, 0⟩, true) ::
         vs.map (fun _ => (⟨Key.proxyOnce s, 0⟩, false)),
       (Key.proxyOnce s, Entry.single (v1 ())) :: c) ∧
    readRef (traceOps c ((v1 :: vs).map (Op.once s))).2 ⟨Key.proxyOnce s, 0⟩ =
      some (v1 ()) := by
  have hrun := traceOps_once_run h v1 vs
  refine ⟨hrun, ?_⟩
  rw [hrun]
  simp [readRef, lookupKey]

/-- Witness for C2 at a concrete input: three invocations of one call site;
all return the slot-0 reference and the slot holds the first value. -/
theorem localCacheOnce_first_invocation_wins_witness :
    traceOps (emptyCache Nat) ([fun _ => 1, fun _ => 2, fun _ => 3].map (Op.once 0)) =
      ([(⟨Key.proxyOnce 0, 0⟩, true), (⟨Key.proxyOnce 0, 0⟩, false),
        (⟨Key.proxyOnce 0, 0⟩, false)],
       [(Key.proxyOnce 0, Entry.single 1)]) ∧
    readRef (traceOps (emptyCache Nat)
        ([fun _ => 1, fun _ => 2, fun _ => 3].map (Op.once 0))).2
      ⟨Key.proxyOnce 0, 0⟩ = some 1 :=
  localCacheOnce_first_invocation_wins (emptyCache Nat) 0
    (fun _ => 1) [fun _ => 2, fun _ => 3] rfl

/-- C3: at one local_cache! call site, the first invocation creates the
backing stack (run flag true, exactly one cache entry added) and pushes the
first value; later invocations reuse that stack (run flag false, no new
entry) while appending, and every invocation's reference differs from all
earlier ones. -/
theorem localCache_stack_fresh_slots {α : Type} (c : Cache α) (s : Nat)
    (v1 : α) (rest : List α)
    (h : lookupKey c (Key.proxyStack s) = none) :
    traceOps c ((v1 :: rest).map (Op.stackPush s)) =
      ((⟨Key.proxyStack s, 0⟩, true) :: stackRefs s 1 rest.length,
       (Key.proxyStack s, Entry.stack (v1 :: rest)) :: c) ∧
    List.Pairwise (fun a b : Ref × Bool => a.1 ≠ b.1)
      (traceOps c ((v1 :: rest).map (Op.stackPush s))).1 :=
  ⟨traceOps_stack_run h v1 rest, stack_run_refs_pairwise h v1 rest⟩

/-- Witness for C3 at a concrete input: three pushes at one call site give
slots 0, 1, 2 of one shared stack, with only the first creating it. -/
theorem localCache_stack_fresh_slots_witness :
    traceOps (emptyCache Nat) ([10, 20, 30].map (Op.stackPush 0)) =
      ([(⟨Key.proxyStack 0, 0⟩, true), (⟨Key.proxyStack 0, 1⟩, false),
        (⟨Key.proxyStack 0, 2⟩, false)],
       [(Key.proxyStack 0, Entry.stack [10, 20, 30])]) ∧
    List.Pairwise (fun a b : Ref × Bool => a.1 ≠ b.1)
      (traceOps (emptyCache Nat) ([10, 20, 30].map (Op.stackPush 0))).1 :=
  localCache_stack_fresh_slots (emptyCache Nat) 0 10 [20, 30] rfl

/-- C4: at a stack-pattern call site, the k-th push returns the reference
to slot k, that reference still observes the k-th pushed value after any
further operations of the same request, and all returned references are
pairwise distinct. -/
theorem pushOwned_kth_value_stable {α : Type} (c : Cache α) (s : Nat)
    (v1 : α) (tl : List α) (rest : List (Op α)) (k : Nat)
    (h : lookupKey c (Key.proxyStack s) = none) (hk : k < (v1 :: tl).length) :
    listGet ((traceOps c ((v1 :: tl).map (Op.stackPush s))).1.map Prod.fst) k =
      some ⟨Key.proxyStack s, k⟩ ∧
    readRef (runOps (traceOps c ((v1 :: tl).map (Op.stackPush s))).2 rest)
      ⟨Key.proxyStack s, k⟩ = listGet (v1 :: tl) k ∧
    List.Pairwise (fun a b : Ref × Bool => a.1 ≠ b.1)
      (traceOps c ((v1 :: tl).map (Op.stackPush s))).1 := by
  have hrun := traceOps_stack_run h v1 tl
  refine ⟨?_, ?_, stack_run_refs_pairwise h v1 tl⟩
  · rw [hrun]
    show listGet (((⟨Key.proxyStack s, 0⟩, true) ::
        stackRefs s 1 tl.length).map Prod.fst) k = some ⟨Key.proxyStack s, k⟩
    cases k with
    | zero => rfl
    | succ j =>
      have hj : j < tl.length := Nat.lt_of_succ_lt_succ hk
      have hg := listGet_stackRefs s tl.length 1 j hj
      have harith : 1 + j = j + 1 := by omega
      rw [harith] at hg
      simp only [List.map_cons, listGet]
      exact hg
  · obtain ⟨x, hx⟩ := listGet_lt_isSome hk
    have hread : readRef ((Key.proxyStack s, Entry.stack (v1 :: tl)) :: c)
        ⟨Key.proxyStack s, k⟩ = some x := by
      simpa [readRef, lookupKey] using hx
    have hpres := readRef_runOps_preserved rest _ hread
    rw [hrun]
    show readRef (runOps ((Key.proxyStack s, Entry.stack (v1 :: tl)) :: c) rest)
        ⟨Key.proxyStack s, k⟩ = listGet (v1 :: tl) k
    rw [hx]
    exact hpres

/-- Witness for C4 at a concrete input: of three pushes, the second (k = 1)
returns slot 1 and still observes its value after a later unrelated
invocation. -/
theorem pushOwned_kth_value_stable_witness :
    listGet ((traceOps (emptyCache Nat)
        ([4, 5, 6].map (Op.stackPush 0))).1.map Prod.fst) 1 =
      some ⟨Key.proxyStack 0, 1⟩ ∧
    readRef (runOps (traceOps (emptyCache Nat)
        ([4, 5, 6].map (Op.stackPush 0))).2 [Op.once 1 (fun _ => 9)])
      ⟨Key.proxyStack 0, 1⟩ = listGet [4, 5, 6] 1 ∧
    List.Pairwise (fun a b : Ref × Bool => a.1 ≠ b.1)
      (traceOps (emptyCache Nat) ([4, 5, 6].map (Op.stackPush 0))).1 :=
  pushOwned_kth_value_stable (emptyCache Nat) 0 4 [5, 6]
    [Op.once 1 (fun _ => 9)] 1 rfl (by decide)

/-- C5: two textually distinct call sites over the same payload type get
distinct proxy keys, and a run of invocations all belonging to the second
site never changes what any reference into the first site's slot observes. -/
theorem call_site_independence {α : Type} (c : Cache α) (s1 s2 : Nat)
    (hne : s1 ≠ s2) (ops : List (Op α))
    (hops : ∀ op ∈ ops, opKey op = Key.proxyOnce s2) (r : Ref)
    (hr : r.key = Key.proxyOnce s1) :
    Key.proxyOnce s1 ≠ Key.proxyOnce s2 ∧
    readRef (runOps c ops) r = readRef c r := by
  have hkne : Key.proxyOnce s1 ≠ Key.proxyOnce s2 := by
    intro hk
    injection hk with h1
    exact hne h1
  refine ⟨hkne, ?_⟩
  refine readRef_congr r ?_
  refine lookupKey_runOps_frame ops c ?_
  intro op hop
  rw [hr, hops op hop]
  exact hkne

/-- Witness for C5 at a concrete input: a second site's invocation leaves
the first site's observed value untouched. -/
theorem call_site_independence_witness :
    Key.proxyOnce 0 ≠ Key.proxyOnce 1 ∧
    readRef (runOps [(Key.proxyOnce 0, Entry.single 5)] [Op.once 1 (fun _ => 6)])
        ⟨Key.proxyOnce 0, 0⟩ =
      readRef [(Key.proxyOnce 0, Entry.single 5)] ⟨Key.proxyOnce 0, 0⟩ :=
  call_site_independence [(Key.proxyOnce 0, Entry.single 5)] 0 1 (by decide)
    [Op.once 1 (fun _ => 6)]
    (by
      intro op hop
      simp only [List.mem_singleton] at hop
      subst hop
      rfl)
    ⟨Key.proxyOnce 0, 0⟩ rfl

/-- C6: a factory that aborts during get-or-init commits nothing — the
cache, and in particular the slot for that key, is exactly as before — and
a subsequent get-or-init for the same key runs its factory and succeeds. -/
theorem factory_failure_no_commit {α : Type} (c : Cache α) (k : Key)
    (f1 f2 : Unit → Option (Entry α)) (e : Entry α)
    (h : lookupKey c k = none) (h1 : f1 () = none) (h2 : f2 () = some e) :
    (getOrInitF c k f1).2.1 = c ∧
    lookupKey (getOrInitF c k f1).2.1 k = none ∧
    getOrInitF (getOrInitF c k f1).2.1 k f2 = (some e, (k, e) :: c, true) := by
  have hfail : getOrInitF c k f1 = (none, c, true) := by
    simp [getOrInitF, h, h1]
  rw [hfail]
  exact ⟨rfl, h, by simp [getOrInitF, h, h2]⟩

/-- Witness for C6 at a concrete input: a failing factory leaves the cache
empty and a retry succeeds with its factory running. -/
theorem factory_failure_no_commit_witness :
    (getOrInitF (emptyCache Nat) (Key.bare 0) (fun _ => none)).2.1 = emptyCache Nat ∧
    lookupKey (getOrInitF (emptyCache Nat) (Key.bare 0) (fun _ => none)).2.1
      (Key.bare 0) = none ∧
    getOrInitF (getOrInitF (emptyCache Nat) (Key.bare 0) (fun _ => none)).2.1
        (Key.bare 0) (fun _ => some (Entry.single 3)) =
      (some (Entry.single 3), [(Key.bare 0, Entry.single 3)], true) :=
  factory_failure_no_commit (emptyCache Nat) (Key.bare 0) (fun _ => none)
    (fun _ => some (Entry.single 3)) (Entry.single 3) rfl rfl rfl

/-- C7: the sealed Shareable set accepted by the stack adapter is exactly
the string-like type together with vector-like containers of any element
type, membership is a compile-time function of the type alone, and an
admitted call always yields a result (no runtime error case exists). -/
theorem shareable_sealed_static {α : Type} (t : PayloadTy) (c : Cache α)
    (site : Nat) (v : α) :
    (shareable t = true ↔ t = PayloadTy.str ∨ ∃ u, t = PayloadTy.vec u) ∧
    ((localCacheTyped t c site v).isSome ↔ shareable t = true) ∧
    (localCacheTyped t c site v = none ↔ shareable t = false) := by
  refine ⟨?_, ?_, ?_⟩
  · cases t <;> simp [shareable]
  · cases hsh : shareable t <;> simp [localCacheTyped, hsh]
  · cases hsh : shareable t <;> simp [localCacheTyped, hsh]

/-- C8: a world of requests, each owning its cache, is interference-free:
the cache a request ends with equals the run of exactly its own operations
from an empty cache, so nothing cached by another request is ever
observable in it. -/
theorem no_cross_request_leakage {α : Type} (ops : List (Nat × Op α)) (r : Nat) :
    runWorld (fun _ => emptyCache α) ops r =
      runOps (emptyCache α) ((ops.filter (fun p => p.1 == r)).map Prod.snd) :=
  runWorld_proj ops (fun _ => emptyCache α) r

/-- C9: at one local_cache_once! call site the value expression, moved into
the factory closure, is evaluated exactly on the first invocation (run
flags are true then all false), and the whole trace is unchanged when the
later invocations' value expressions are replaced by any others — their
evaluation and side effects never happen. -/
theorem once_value_expr_evaluated_at_most_once {α : Type} (c : Cache α) (s : Nat)
    (v1 : Unit → α) (vs ws : List (Unit → α))
    (h : lookupKey c (Key.proxyOnce s) = none) (hlen : vs.length = ws.length) :
    (traceOps c ((v1 :: vs).map (Op.once s))).1.map Prod.snd =
      true :: List.replicate vs.length false ∧
    traceOps c ((v1 :: vs).map (Op.once s)) =
      traceOps c ((v1 :: ws).map (Op.once s)) := by
  have h1 := traceOps_once_run h v1 vs
  have h2 := traceOps_once_run h v1 ws
  constructor
  · rw [h1]
    show (((⟨Key.proxyOnce s, 0⟩, true) : Ref × Bool) ::
        vs.map (fun _ => ((⟨Key.proxyOnce s, 0⟩, false) : Ref × Bool))).map Prod.snd =
      true :: List.replicate vs.length false
    simp [List.map_map, map_const_replicate]
  · rw [h1, h2]
    rw [map_const_replicate ((⟨Key.proxyOnce s, 0⟩ : Ref), false) vs,
        map_const_replicate ((⟨Key.proxyOnce s, 0⟩ : Ref), false) ws, hlen]

/-- Witness for C9 at a concrete input: two invocations; only the first
expression is evaluated, and replacing the second expression changes
nothing. -/
theorem once_value_expr_evaluated_at_most_once_witness :
    (traceOps (emptyCache Nat)
        ([fun _ => 1, fun _ => 2].map (Op.once 0))).1.map Prod.snd =
      true :: List.replicate 1 false ∧
    traceOps (emptyCache Nat) ([fun _ => 1, fun _ => 2].map (Op.once 0)) =
      traceOps (emptyCache Nat) ([fun _ => 1, fun _ => 5].map (Op.once 0)) :=
  once_value_expr_evaluated_at_most_once (emptyCache Nat) 0
    (fun _ => 1) [fun _ => 2] [fun _ => 5] rfl rfl

/-- C10: a macro-generated proxy slot never aliases the bare payload type's
slot: the proxy keys differ from every bare key, a macro invocation leaves
every bare entry untouched, and a direct get-or-init for the bare type
behaves identically (same factory-run flag, same observed value) whether or
not the macro invocation happened, in a different slot. -/
theorem macro_slot_no_bare_alias {α : Type} (c : Cache α) (site ty : Nat)
    (v : Unit → α) (w : α) (f : Unit → α) :
    Key.proxyOnce site ≠ Key.bare ty ∧
    Key.proxyStack site ≠ Key.bare ty ∧
    lookupKey (applyOp c (Op.once site v)).2.1 (Key.bare ty) =
      lookupKey c (Key.bare ty) ∧
    lookupKey (applyOp c (Op.stackPush site w)).2.1 (Key.bare ty) =
      lookupKey c (Key.bare ty) ∧
    (applyOp (applyOp c (Op.once site v)).2.1 (Op.rawInit ty f)).2.2 =
      (applyOp c (Op.rawInit ty f)).2.2 ∧
    readRef (applyOp (applyOp c (Op.once site v)).2.1 (Op.rawInit ty f)).2.1
        ⟨Key.bare ty, 0⟩ =
      readRef (applyOp c (Op.rawInit ty f)).2.1 ⟨Key.bare ty, 0⟩ := by
  have honce : lookupKey (applyOp c (Op.once site v)).2.1 (Key.bare ty) =
      lookupKey c (Key.bare ty) :=
    lookupKey_applyOp_frame c (Op.once site v) (by simp [opKey])
  have hpush : lookupKey (applyOp c (Op.stackPush site w)).2.1 (Key.bare ty) =
      lookupKey c (Key.bare ty) :=
    lookupKey_applyOp_frame c (Op.stackPush site w) (by simp [opKey])
  have hraw := rawInit_depends_only_on_bare ty f honce
  exact ⟨by simp, by simp, honce, hpush, hraw.1, hraw.2⟩

end Leukailu
